import Mathlib

/-!
Verification of the `cache` package of pengenjago/fibox (`cache/lru.go`):
a capacity-bounded LRU cache with optional per-entry TTL, pattern-based
bulk deletion and hit/miss/size statistics.

The wrapper code (`LRUCache` and its methods) is embedded directly from
`cache/lru.go`.  The eviction engine it delegates to
(`hashicorp/golang-lru/v2`) is an external dependency, so it is modelled
from the specification of the eviction engine (spec section 4.1): a
capacity-bounded recency-ordered store.  We represent it as an
association list kept in recency order, most-recently-used first.

Go `time.Time` is modelled as `Int`; the zero value of `time.Time`
(which `cache/lru.go` uses as the "no expiration" sentinel, tested with
`IsZero`) is modelled as `none` in an `Option Int`.  Durations are `Int`
(they may be negative or zero).  Go map iteration order is modelled by
list order; the final states of the operations do not depend on it.
Keys are Go strings, modelled as `List Char`.
-/

namespace Fibox

abbrev Key := List Char

/-- Go `time.Time`, as an absolute instant.  `none` models the zero
`time.Time` used as the "no expiration" sentinel. -/
abbrev Time := Int

/-- `cacheItem` of `cache/lru.go`: the stored value together with its
optional absolute expiry instant. -/
structure cacheItem (α : Type) where
  value : α
  expiresAt : Option Time
deriving DecidableEq, Repr

/-- Association-list lookup (first entry with the given key). -/
def alLookup {β : Type} (m : List (Key × β)) (k : Key) : Option β :=
  match m.find? (fun p => decide (p.1 = k)) with
  | some p => some p.2
  | none => none

/-- Association-list deletion: removes every entry with the given key. -/
def alErase {β : Type} (m : List (Key × β)) (k : Key) : List (Key × β) :=
  m.filter (fun p => decide (p.1 ≠ k))

/-- Association-list insert-or-replace, placing the new entry in front. -/
def alInsert {β : Type} (m : List (Key × β)) (k : Key) (v : β) : List (Key × β) :=
  (k, v) :: alErase m k

/-- Modelled from the spec: the eviction engine (`hashicorp/golang-lru/v2`,
an external dependency not in this repository), spec section 4.1 — a
capacity-bounded key-item store in recency order, most-recently-used
first, the last element being the eviction candidate. -/
abbrev Engine (α : Type) := List (Key × cacheItem α)

/-- Modelled from the spec: engine `put` (`lru.Cache.Add`).  Inserting or
replacing marks the key most-recently-used; inserting a new key when the
store is already at capacity first evicts the single least-recently-used
key; replacing an existing key never evicts. -/
def Engine.put {α : Type} (cap : Nat) (e : Engine α) (k : Key) (it : cacheItem α) :
    Engine α :=
  if (alLookup e k).isSome then
    (k, it) :: alErase e k
  else if cap ≤ e.length then
    (k, it) :: e.dropLast
  else
    (k, it) :: e

/-- Modelled from the spec: engine `get` (`lru.Cache.Get`).  On a hit the
key is marked most-recently-used; on a miss the store is unchanged. -/
def Engine.get {α : Type} (e : Engine α) (k : Key) :
    Option (cacheItem α) × Engine α :=
  match alLookup e k with
  | some it => (some it, (k, it) :: alErase e k)
  | none => (none, e)

/-- Modelled from the spec: engine `remove` (`lru.Cache.Remove`); a no-op
when the key is absent. -/
def Engine.remove {α : Type} (e : Engine α) (k : Key) : Engine α :=
  alErase e k

/-- Modelled from the spec: engine `purge` (`lru.Cache.Purge`). -/
def Engine.purge {α : Type} (_e : Engine α) : Engine α := []

/-- `Stats` of `cache/lru.go`. -/
structure Stats where
  hits : Int
  misses : Int
  size : Nat
deriving DecidableEq, Repr

/-- `LRUCache` of `cache/lru.go`: the engine, the running counters and
the expiration index `ttlMap`.  The `Size` slot of the stored `Stats` is
only ever written immediately before `Stats()` returns, so the state
keeps just the two counters; `LRUCache.Stats` recomputes the size. -/
structure LRUCache (α : Type) where
  cap : Nat
  cache : Engine α
  hits : Int
  misses : Int
  ttlMap : List (Key × Time)
deriving DecidableEq, Repr

/-- The cache produced by a successful `NewLRUCache` call: empty engine
of the given capacity, zero counters, empty `ttlMap`. -/
def mkCache (α : Type) (cap : Nat) : LRUCache α :=
  { cap := cap, cache := [], hits := 0, misses := 0, ttlMap := [] }

/-- `NewLRUCache` of `cache/lru.go`: `lru.New` fails for a size ≤ 0, in
which case the constructor returns `nil` (modelled as `none`). -/
def NewLRUCache (α : Type) (size : Int) : Option (LRUCache α) :=
  if size ≤ 0 then none else some (mkCache α size.toNat)

/-- `Get` of `cache/lru.go`.  Returns the Go `(interface\x7b\x7d, bool)` pair
and the successor state; `now` is the instant `time.Now()` observed
during the call. -/
def LRUCache.Get {α : Type} (c : LRUCache α) (now : Time) (k : Key) :
    (Option α × Bool) × LRUCache α :=
  match (Engine.get c.cache k).1 with
  | none =>
      ((none, false), { c with misses := c.misses + 1 })
  | some item =>
      let e1 := (Engine.get c.cache k).2
      match item.expiresAt with
      | some d =>
          if d < now then
            ((none, false),
              { c with cache := Engine.remove e1 k,
                       ttlMap := alErase c.ttlMap k,
                       misses := c.misses + 1 })
          else
            ((some item.value, true), { c with cache := e1, hits := c.hits + 1 })
      | none =>
          ((some item.value, true), { c with cache := e1, hits := c.hits + 1 })

/-- `Set` of `cache/lru.go`: stores with the zero expiry (no deadline)
and removes any existing TTL for the key; always returns a nil error. -/
def LRUCache.Set {α : Type} (c : LRUCache α) (k : Key) (v : α) : LRUCache α :=
  { c with cache := Engine.put c.cap c.cache k ⟨v, none⟩,
           ttlMap := alErase c.ttlMap k }

/-- `SetWithTTL` of `cache/lru.go`: stores with deadline `now + ttl` and
records the deadline in `ttlMap`; always returns a nil error. -/
def LRUCache.SetWithTTL {α : Type} (c : LRUCache α) (now : Time) (k : Key)
    (v : α) (ttl : Int) : LRUCache α :=
  { c with cache := Engine.put c.cap c.cache k ⟨v, some (now + ttl)⟩,
           ttlMap := alInsert c.ttlMap k (now + ttl) }

/-- `Delete` of `cache/lru.go`: removes from engine and index; always
returns a nil error. -/
def LRUCache.Delete {α : Type} (c : LRUCache α) (k : Key) : LRUCache α :=
  { c with cache := Engine.remove c.cache k,
           ttlMap := alErase c.ttlMap k }

/-- `Clear` of `cache/lru.go`: purges the engine and replaces `ttlMap`
with a fresh empty map; always returns a nil error. -/
def LRUCache.Clear {α : Type} (c : LRUCache α) : LRUCache α :=
  { c with cache := Engine.purge c.cache, ttlMap := [] }

/-- `matchesPattern` of `cache/lru.go`: a pattern whose last byte is `*`
matches keys that start with the pattern minus the `*`; any other
pattern matches only the identical key. -/
def matchesPattern (key pat : Key) : Bool :=
  if pat.getLast? = some '*' then
    let pre := pat.dropLast
    decide (pre.length ≤ key.length) && decide (key.take pre.length = pre)
  else
    decide (key = pat)

/-- Result of `DeleteByPattern` of `cache/lru.go`: the successor state,
the error value handed back to the caller (always nil), and the `count`
field of the emitted debug-log observation. -/
structure DelByPatResult (α : Type) where
  state : LRUCache α
  err : Option String
  loggedCount : Nat
deriving Repr

/-- `DeleteByPattern` of `cache/lru.go`: collects the keys of `ttlMap`
matching the pattern, then removes each from engine and index; the count
of collected keys goes only into the log fields while the caller
receives a nil error. -/
def LRUCache.DeleteByPattern {α : Type} (c : LRUCache α) (pat : Key) :
    DelByPatResult α :=
  let keysToDelete := (c.ttlMap.map Prod.fst).filter (fun k => matchesPattern k pat)
  let c' := keysToDelete.foldl
    (fun acc k =>
      { acc with cache := Engine.remove acc.cache k,
                 ttlMap := alErase acc.ttlMap k }) c
  { state := c', err := none, loggedCount := keysToDelete.length }

/-- `Stats` of `cache/lru.go` (the method): the counters together with
the engine's current length. -/
def LRUCache.Stats {α : Type} (c : LRUCache α) : Fibox.Stats :=
  { hits := c.hits, misses := c.misses, size := c.cache.length }

/-- A `Set` or `SetWithTTL` call, for stating properties of call
sequences. -/
inductive SetOp (α : Type) where
  | bare (k : Key) (v : α)
  | withTTL (now : Time) (k : Key) (v : α) (ttl : Int)

/-- The key a `SetOp` writes. -/
def SetOp.key {α : Type} : SetOp α → Key
  | .bare k _ => k
  | .withTTL _ k _ _ => k

/-- Run one `SetOp` against a cache state. -/
def applySetOp {α : Type} (c : LRUCache α) : SetOp α → LRUCache α
  | .bare k v => c.Set k v
  | .withTTL now k v ttl => c.SetWithTTL now k v ttl

/-- Run a sequence of `SetOp`s against a cache state. -/
def runSetOps {α : Type} (c : LRUCache α) (ops : List (SetOp α)) : LRUCache α :=
  ops.foldl applySetOp c

/-- The pattern semantics exactly as the specification words them: a
pattern ending in `*` matches every key having the pattern minus the
trailing `*` as a prefix of the key, and a pattern without a trailing
`*` matches only the identical key. -/
def specMatch (key pat : Key) : Prop :=
  (pat.getLast? = some '*' ∧ ∃ t, key = pat.dropLast ++ t) ∨
  (pat.getLast? ≠ some '*' ∧ key = pat)

section Lemmas

variable {α β : Type}

theorem alLookup_cons_self (m : List (Key × β)) (k : Key) (v : β) :
    alLookup ((k, v) :: m) k = some v := by
  simp [alLookup, List.find?]

theorem alLookup_alErase (m : List (Key × β)) (k : Key) :
    alLookup (alErase m k) k = none := by
  have h : (alErase m k).find? (fun p => decide (p.1 = k)) = none := by
    rw [List.find?_eq_none]
    intro p hp
    rw [alErase, List.mem_filter] at hp
    simpa using hp.2
  simp [alLookup, h]

theorem alLookup_put_self (cap : Nat) (e : Engine α) (k : Key) (it : cacheItem α) :
    alLookup (Engine.put cap e k it) k = some it := by
  unfold Engine.put
  split
  · exact alLookup_cons_self _ _ _
  · split <;> exact alLookup_cons_self _ _ _

theorem engineGet_fst (e : Engine α) (k : Key) : (Engine.get e k).1 = alLookup e k := by
  unfold Engine.get
  rcases alLookup e k with _ | it <;> rfl

theorem alErase_length_lt (m : List (Key × β)) (k : Key)
    (h : (alLookup m k).isSome = true) : (alErase m k).length < m.length := by
  induction m with
  | nil => simp [alLookup, List.find?_nil] at h
  | cons p m ih =>
    by_cases hk : p.1 = k
    · have he : alErase (p :: m) k = alErase m k := by
        simp [alErase, List.filter_cons, hk]
      rw [he]
      exact Nat.lt_succ_of_le (List.length_filter_le _ _)
    · have he : alErase (p :: m) k = p :: alErase m k := by
        simp [alErase, List.filter_cons, hk]
      have hl : alLookup (p :: m) k = alLookup m k := by
        simp [alLookup, List.find?_cons, hk]
      rw [hl] at h
      rw [he, List.length_cons, List.length_cons]
      exact Nat.succ_lt_succ (ih h)

theorem put_length_le (cap : Nat) (e : Engine α) (k : Key) (it : cacheItem α)
    (hcap : 0 < cap) (hle : e.length ≤ cap) :
    (Engine.put cap e k it).length ≤ cap := by
  unfold Engine.put
  split
  · next hfound =>
    have := alErase_length_lt e k hfound
    simp only [List.length_cons]
    omega
  · split
    · next hcaple =>
      have hd : e.dropLast.length = e.length - 1 := List.length_dropLast e
      simp only [List.length_cons, hd]
      omega
    · next hlt =>
      simp only [List.length_cons]
      omega

theorem applySetOp_cap (c : LRUCache α) (op : SetOp α) :
    (applySetOp c op).cap = c.cap := by
  cases op <;> rfl

theorem applySetOp_length (c : LRUCache α) (op : SetOp α) (hcap : 0 < c.cap)
    (h : c.cache.length ≤ c.cap) : (applySetOp c op).cache.length ≤ c.cap := by
  cases op with
  | bare k v =>
      simpa [applySetOp, LRUCache.Set] using
        put_length_le c.cap c.cache k ⟨v, none⟩ hcap h
  | withTTL now k v ttl =>
      simpa [applySetOp, LRUCache.SetWithTTL] using
        put_length_le c.cap c.cache k ⟨v, some (now + ttl)⟩ hcap h

theorem matchesPattern_iff (key pat : Key) :
    matchesPattern key pat = true ↔ specMatch key pat := by
  unfold matchesPattern specMatch
  by_cases hstar : pat.getLast? = some '*'
  · rw [if_pos hstar]
    simp only [Bool.and_eq_true, decide_eq_true_eq]
    constructor
    · rintro ⟨_, htake⟩
      refine Or.inl ⟨hstar, ⟨key.drop pat.dropLast.length, ?_⟩⟩
      conv_lhs => rw [← List.take_append_drop pat.dropLast.length key]
      rw [htake]
    · rintro (⟨_, t, rfl⟩ | ⟨hne, _⟩)
      · refine ⟨?_, List.take_left _ _⟩
        simp [List.length_append]
      · exact absurd hstar hne
  · rw [if_neg hstar]
    simp only [decide_eq_true_eq]
    constructor
    · intro hkey
      exact Or.inr ⟨hstar, hkey⟩
    · rintro (⟨hs, _⟩ | ⟨_, hkey⟩)
      · exact absurd hs hstar
      · exact hkey

theorem foldlRemove_ttlMap (ks : List Key) (c : LRUCache α) :
    (ks.foldl (fun acc k =>
      { acc with cache := Engine.remove acc.cache k,
                 ttlMap := alErase acc.ttlMap k }) c).ttlMap
    = c.ttlMap.filter (fun e => decide (e.1 ∉ ks)) := by
  induction ks generalizing c with
  | nil => simp
  | cons k ks ih =>
    rw [List.foldl_cons, ih]
    show (alErase c.ttlMap k).filter (fun e => decide (e.1 ∉ ks)) =
      c.ttlMap.filter (fun e => decide (e.1 ∉ k :: ks))
    rw [alErase, List.filter_filter]
    refine List.filter_congr ?_
    intro x _
    by_cases h1 : x.1 = k <;> by_cases h2 : x.1 ∈ ks <;>
      simp [h1, h2, List.mem_cons]

theorem foldlRemove_cache (ks : List Key) (c : LRUCache α) :
    (ks.foldl (fun acc k =>
      { acc with cache := Engine.remove acc.cache k,
                 ttlMap := alErase acc.ttlMap k }) c).cache
    = c.cache.filter (fun e => decide (e.1 ∉ ks)) := by
  induction ks generalizing c with
  | nil => simp
  | cons k ks ih =>
    rw [List.foldl_cons, ih]
    show (Engine.remove c.cache k).filter (fun e => decide (e.1 ∉ ks)) =
      c.cache.filter (fun e => decide (e.1 ∉ k :: ks))
    rw [Engine.remove, alErase, List.filter_filter]
    refine List.filter_congr ?_
    intro x _
    by_cases h1 : x.1 = k <;> by_cases h2 : x.1 ∈ ks <;>
      simp [h1, h2, List.mem_cons]

theorem mem_map_fst_filter_notin (m : List (Key × β)) (ks : List Key) (k : Key) :
    k ∈ (m.filter (fun e => decide (e.1 ∉ ks))).map Prod.fst ↔
      (k ∈ m.map Prod.fst ∧ k ∉ ks) := by
  simp only [List.mem_map, List.mem_filter, decide_eq_true_eq]
  constructor
  · rintro ⟨e, ⟨he, hnotin⟩, rfl⟩
    exact ⟨⟨e, he, rfl⟩, hnotin⟩
  · rintro ⟨⟨e, he, rfl⟩, hnotin⟩
    exact ⟨e, ⟨he, hnotin⟩, rfl⟩

theorem deleteByPattern_state_ttlMap (c : LRUCache α) (pat : Key) :
    (c.DeleteByPattern pat).state.ttlMap =
      c.ttlMap.filter (fun e => decide (e.1 ∉
        (c.ttlMap.map Prod.fst).filter (fun k => matchesPattern k pat))) := by
  simp only [LRUCache.DeleteByPattern]
  exact foldlRemove_ttlMap _ _

theorem deleteByPattern_state_cache (c : LRUCache α) (pat : Key) :
    (c.DeleteByPattern pat).state.cache =
      c.cache.filter (fun e => decide (e.1 ∉
        (c.ttlMap.map Prod.fst).filter (fun k => matchesPattern k pat))) := by
  simp only [LRUCache.DeleteByPattern]
  exact foldlRemove_cache _ _

theorem filter_length_add {γ : Type} (l : List γ) (p : γ → Bool) :
    (l.filter p).length + (l.filter (fun a => !(p a))).length = l.length := by
  induction l with
  | nil => rfl
  | cons a l ih =>
    by_cases h : p a = true <;>
      simp only [List.filter_cons, h, Bool.not_true, Bool.not_false, if_pos, if_neg,
        Bool.false_eq_true, not_false_eq_true, List.length_cons, ite_true, ite_false] <;>
      omega

theorem deleteByPattern_count (c : LRUCache α) (pat : Key) :
    (c.DeleteByPattern pat).loggedCount =
      c.ttlMap.length - (c.DeleteByPattern pat).state.ttlMap.length := by
  have hlc : (c.DeleteByPattern pat).loggedCount =
      ((c.ttlMap.map Prod.fst).filter (fun k => matchesPattern k pat)).length := rfl
  rw [hlc, deleteByPattern_state_ttlMap]
  have hcg : c.ttlMap.filter (fun e => decide (e.1 ∉
        (c.ttlMap.map Prod.fst).filter (fun k => matchesPattern k pat)))
      = c.ttlMap.filter (fun e => !(matchesPattern e.1 pat)) := by
    refine List.filter_congr ?_
    intro x hx
    have hxf : x.1 ∈ c.ttlMap.map Prod.fst := List.mem_map_of_mem Prod.fst hx
    by_cases hm : matchesPattern x.1 pat = true <;> simp [List.mem_filter, hm, hxf]
  rw [hcg]
  have hmapl : ((c.ttlMap.map Prod.fst).filter (fun k => matchesPattern k pat)).length
      = (c.ttlMap.filter (fun e => matchesPattern e.1 pat)).length := by
    rw [List.filter_map, List.length_map]
    rfl
  rw [hmapl]
  have := filter_length_add c.ttlMap (fun e => matchesPattern e.1 pat)
  omega

theorem runSetOps_invariant (ops : List (SetOp α)) (c : LRUCache α)
    (hcap : 0 < c.cap) (h : c.cache.length ≤ c.cap) :
    (runSetOps c ops).cap = c.cap ∧ (runSetOps c ops).cache.length ≤ c.cap := by
  induction ops generalizing c with
  | nil => exact ⟨rfl, h⟩
  | cons op ops ih =>
    have hcap' : 0 < (applySetOp c op).cap := by rw [applySetOp_cap]; exact hcap
    have h' : (applySetOp c op).cache.length ≤ (applySetOp c op).cap := by
      rw [applySetOp_cap]; exact applySetOp_length c op hcap h
    have hrec := ih (applySetOp c op) hcap' h'
    rw [applySetOp_cap] at hrec
    exact hrec

end Lemmas

/-- Claim C1: the claimed invariant — every key in the expiration index
is also in the engine — fails on the code after a capacity eviction.  On
a capacity-1 cache, `SetWithTTL a` then `SetWithTTL b` evicts `a` from
the engine but leaves `a` in `ttlMap`: the evicting insert never cleans
the expiration index. -/
theorem C1_eviction_leaks_ttlMap :
    (['a'] ∈ (((mkCache Nat 1).SetWithTTL 0 ['a'] 1 100).SetWithTTL 0 ['b'] 2 100).ttlMap.map
        Prod.fst) ∧
    (Engine.get (((mkCache Nat 1).SetWithTTL 0 ['a'] 1 100).SetWithTTL 0 ['b'] 2 100).cache
        ['a']).1 = none := by
  decide

/-- Claim C2, counterexample: `DeleteByPattern` does not return the
number of removed keys to the caller.  The caller-visible return value
(the Go `error`, always nil) is identical for a call that removes two
keys and a call that removes none, so no function of the returned value
can recover the count. -/
theorem C2_count_not_returned_counterexample :
    ¬ ∃ f : Option String → Nat, ∀ (c : LRUCache Nat) (pat : Key),
        f (c.DeleteByPattern pat).err =
          c.ttlMap.length - (c.DeleteByPattern pat).state.ttlMap.length := by
  rintro ⟨f, hf⟩
  have h0 := hf (mkCache Nat 1) ['*']
  have h2 := hf (((mkCache Nat 2).SetWithTTL 0 ['a'] 1 1).SetWithTTL 0 ['b'] 2 1) ['*']
  have c1err : ((mkCache Nat 1).DeleteByPattern ['*']).err = none := rfl
  have c1count : (mkCache Nat 1).ttlMap.length -
      ((mkCache Nat 1).DeleteByPattern ['*']).state.ttlMap.length = 0 := by decide
  rw [c1err, c1count] at h0
  have c2err : ((((mkCache Nat 2).SetWithTTL 0 ['a'] 1 1).SetWithTTL 0
      ['b'] 2 1).DeleteByPattern ['*']).err = none := rfl
  have c2count : (((mkCache Nat 2).SetWithTTL 0 ['a'] 1 1).SetWithTTL 0
        ['b'] 2 1).ttlMap.length -
      ((((mkCache Nat 2).SetWithTTL 0 ['a'] 1 1).SetWithTTL 0
        ['b'] 2 1).DeleteByPattern ['*']).state.ttlMap.length = 2 := by decide
  rw [c2err, c2count] at h2
  rw [h0] at h2
  exact absurd h2 (by decide)

/-- Claim C2, amended: for every pattern, `DeleteByPattern` computes the
number of keys it removes, but reports it only in the emitted log
observation; the caller receives a nil error carrying no count.  The
logged count equals the number of entries removed from the expiration
index. -/
theorem C2_count_logged_not_returned {α : Type} (c : LRUCache α) (pat : Key) :
    (c.DeleteByPattern pat).err = none ∧
    (c.DeleteByPattern pat).loggedCount =
      c.ttlMap.length - (c.DeleteByPattern pat).state.ttlMap.length :=
  ⟨rfl, deleteByPattern_count c pat⟩

/-- Claim C3: `DeleteByPattern` removes exactly those keys that are
present in the expiration index and match the pattern — where a pattern
ending in `*` matches every key having the pattern minus the trailing
`*` as a prefix, and any other pattern matches only the identical key —
and keys stored without a TTL (absent from the index) are never removed
from the engine. -/
theorem C3_deleteByPattern_removes_exactly {α : Type} (c : LRUCache α) (pat : Key) :
    (∀ k : Key,
      k ∈ (c.DeleteByPattern pat).state.ttlMap.map Prod.fst ↔
        (k ∈ c.ttlMap.map Prod.fst ∧ ¬ specMatch k pat)) ∧
    (∀ k : Key,
      k ∈ (c.DeleteByPattern pat).state.cache.map Prod.fst ↔
        (k ∈ c.cache.map Prod.fst ∧
          ¬ (k ∈ c.ttlMap.map Prod.fst ∧ specMatch k pat))) := by
  have hkd : ∀ k : Key,
      k ∈ (c.ttlMap.map Prod.fst).filter (fun k => matchesPattern k pat) ↔
        (k ∈ c.ttlMap.map Prod.fst ∧ specMatch k pat) := by
    intro k
    rw [List.mem_filter, matchesPattern_iff]
  constructor
  · intro k
    rw [deleteByPattern_state_ttlMap, mem_map_fst_filter_notin, hkd k]
    tauto
  · intro k
    rw [deleteByPattern_state_cache, mem_map_fst_filter_notin, hkd k]

/-- Claim C4: for every sequence of `Set`/`SetWithTTL` calls with
distinct keys on a cache built by `NewLRUCache` with capacity > 0, after
any call (i.e. after any n-step run of the sequence) `Stats().Size` is at
most the capacity. -/
theorem C4_capacity_invariant {α : Type} (size : Int) (hpos : 0 < size)
    (c0 : LRUCache α) (hnew : NewLRUCache α size = some c0)
    (ops : List (SetOp α)) (_hdistinct : (ops.map SetOp.key).Nodup) (n : Nat) :
    ((runSetOps c0 (ops.take n)).Stats).size ≤ size.toNat := by
  have hc0 : c0 = mkCache α size.toNat := by
    unfold NewLRUCache at hnew
    rw [if_neg (by omega)] at hnew
    injection hnew with hnew
    exact hnew.symm
  subst hc0
  have hcap : 0 < (mkCache α size.toNat).cap := by
    simp only [mkCache]
    omega
  have hrun := runSetOps_invariant (ops.take n) (mkCache α size.toNat) hcap
    (by simp [mkCache])
  simpa [LRUCache.Stats, mkCache] using hrun.2

/-- Claim C4, witness: capacity 2, three distinct-key writes, checked
after the third call. -/
theorem C4_capacity_invariant_witness :
    (0 : Int) < 2 ∧
    NewLRUCache Nat 2 = some (mkCache Nat 2) ∧
    (([SetOp.bare ['a'] 1, SetOp.bare ['b'] 2,
        SetOp.withTTL 0 ['c'] 3 5].map SetOp.key).Nodup) ∧
    ((runSetOps (mkCache Nat 2)
        ([SetOp.bare ['a'] 1, SetOp.bare ['b'] 2,
          SetOp.withTTL 0 ['c'] 3 5].take 3)).Stats).size ≤ (2 : Int).toNat := by
  refine ⟨by decide, by decide, by decide, ?_⟩
  exact C4_capacity_invariant 2 (by decide) (mkCache Nat 2) (by decide)
    [SetOp.bare ['a'] 1, SetOp.bare ['b'] 2, SetOp.withTTL 0 ['c'] 3 5]
    (by decide) 3

/-- Claim C5: on a capacity-2 cache, `set(a,1); set(b,2); get(a); set(c,3)`
evicts exactly key `b`: the engine then holds exactly `c` and `a`, and the
subsequent `get(a)`, `get(c)`, `get(b)` return `(1, found)`, `(3, found)`
and not-found respectively. -/
theorem C5_lru_order :
    ((((((mkCache Nat 2).Set ['a'] 1).Set ['b'] 2).Get 0 ['a']).2.Set
        ['c'] 3).cache.map Prod.fst = [['c'], ['a']]) ∧
    (((((((mkCache Nat 2).Set ['a'] 1).Set ['b'] 2).Get 0 ['a']).2.Set
        ['c'] 3).Get 0 ['a']).1 = (some 1, true)) ∧
    ((((((((mkCache Nat 2).Set ['a'] 1).Set ['b'] 2).Get 0 ['a']).2.Set
        ['c'] 3).Get 0 ['a']).2.Get 0 ['c']).1 = (some 3, true)) ∧
    (((((((((mkCache Nat 2).Set ['a'] 1).Set ['b'] 2).Get 0 ['a']).2.Set
        ['c'] 3).Get 0 ['a']).2.Get 0 ['c']).2.Get 0 ['b']).1 = (none, false)) := by
  decide

/-- Claim C6, counterexample: a key whose deadline is equal to the
current time is NOT treated as expired — `Get` uses Go's strict
`time.Now().After(expiresAt)`.  Here the deadline is 15 and the current
time is 15 (so deadline ≤ now), yet `Get` hits, removes nothing and does
not increment the miss counter, contradicting the claim's "less than or
equal to". -/
theorem C6_deadline_equal_now_hits :
    (Engine.get ((mkCache Nat 1).SetWithTTL 10 ['k'] 7 5).cache ['k']).1 =
      some ⟨7, some 15⟩ ∧
    (((mkCache Nat 1).SetWithTTL 10 ['k'] 7 5).Get 15 ['k']).1 = (some 7, true) ∧
    (((mkCache Nat 1).SetWithTTL 10 ['k'] 7 5).Get 15 ['k']).2.misses =
      ((mkCache Nat 1).SetWithTTL 10 ['k'] 7 5).misses ∧
    alLookup (((mkCache Nat 1).SetWithTTL 10 ['k'] 7 5).Get 15 ['k']).2.ttlMap ['k'] =
      some 15 := by
  decide

/-- Claim C7, counterexample: after `setWithTTL(k, 7, 0)` (a ttl ≤ 0) at
instant 10, a get at the same instant 10 still returns found — the entry
is not "expired immediately" at the very instant it was stored, because
expiry requires the current time to be strictly after the deadline. -/
theorem C7_zero_ttl_same_instant_hits :
    (((mkCache Nat 1).SetWithTTL 10 ['k'] 7 0).Get 10 ['k']).1 = (some 7, true) := by
  decide

/-- Claim C6, amended: for every key present in the engine with a
deadline STRICTLY LESS THAN the current time, `Get` returns not-found,
physically removes the key from both the engine and the expiration
index, and increments the miss counter by exactly one (the hit counter
is unchanged). -/
theorem C6_strictly_expired_get_is_miss {α : Type} (c : LRUCache α) (now : Time)
    (k : Key) (it : cacheItem α) (d : Time)
    (hfound : (Engine.get c.cache k).1 = some it)
    (hexp : it.expiresAt = some d) (hlt : d < now) :
    (c.Get now k).1 = (none, false) ∧
    (Engine.get (c.Get now k).2.cache k).1 = none ∧
    alLookup (c.Get now k).2.ttlMap k = none ∧
    (c.Get now k).2.misses = c.misses + 1 ∧
    (c.Get now k).2.hits = c.hits := by
  have hal : alLookup c.cache k = some it := (engineGet_fst c.cache k).symm.trans hfound
  simp [LRUCache.Get, engineGet_fst, hal, hexp, hlt, Engine.remove, alLookup_alErase]

/-- Claim C6, witness: a concrete capacity-1 cache whose key has
deadline 15, read at time 16. -/
theorem C6_strictly_expired_get_is_miss_witness :
    let c := (mkCache Nat 1).SetWithTTL 10 ['k'] 7 5
    (Engine.get c.cache ['k']).1 = some ⟨7, some 15⟩ ∧ (15 : Int) < 16 ∧
    ((c.Get 16 ['k']).1 = (none, false) ∧
     (Engine.get (c.Get 16 ['k']).2.cache ['k']).1 = none ∧
     alLookup (c.Get 16 ['k']).2.ttlMap ['k'] = none ∧
     (c.Get 16 ['k']).2.misses = c.misses + 1 ∧
     (c.Get 16 ['k']).2.hits = c.hits) := by
  refine ⟨by decide, by decide, ?_⟩
  exact C6_strictly_expired_get_is_miss _ 16 ['k'] ⟨7, some 15⟩ 15 (by decide) rfl
    (by decide)

/-- Claim C7, amended: after `setWithTTL(key, value, ttl)` with ttl ≤ 0
at instant `t0`, every get of the key at any STRICTLY LATER instant
returns not-found (the entry's deadline `t0 + ttl` has then strictly
passed). -/
theorem C7_nonpositive_ttl_misses_later {α : Type} (c : LRUCache α) (k : Key)
    (v : α) (ttl : Int) (t0 t : Time) (httl : ttl ≤ 0) (ht : t0 < t) :
    ((c.SetWithTTL t0 k v ttl).Get t k).1 = (none, false) := by
  have hal : alLookup (c.SetWithTTL t0 k v ttl).cache k = some ⟨v, some (t0 + ttl)⟩ := by
    simp only [LRUCache.SetWithTTL]
    exact alLookup_put_self _ _ _ _
  have hexp : t0 + ttl < t := by linarith
  simp [LRUCache.Get, engineGet_fst, hal, hexp]

/-- Claim C7, witness: ttl 0 stored at instant 10, read at instant 11. -/
theorem C7_nonpositive_ttl_misses_later_witness :
    (0 : Int) ≤ 0 ∧ (10 : Int) < 11 ∧
    (((mkCache Nat 1).SetWithTTL 10 ['k'] 7 0).Get 11 ['k']).1 = (none, false) :=
  ⟨by decide, by decide,
    C7_nonpositive_ttl_misses_later (mkCache Nat 1) ['k'] 7 0 10 11 (by decide)
      (by decide)⟩

/-- Claim C8: re-setting a key without TTL clears its deadline: after
`setWithTTL(k, v1, ttl)` followed by `set(k, v2)`, the stored item has no
expiry, the key is gone from the expiration index, and `get(k)` at any
later instant `t` returns `(v2, found)`. -/
theorem C8_bare_set_clears_deadline {α : Type} (c : LRUCache α) (k : Key)
    (v1 v2 : α) (ttl : Int) (t0 t : Time) :
    (((c.SetWithTTL t0 k v1 ttl).Set k v2).Get t k).1 = (some v2, true) ∧
    alLookup ((c.SetWithTTL t0 k v1 ttl).Set k v2).ttlMap k = none ∧
    alLookup ((c.SetWithTTL t0 k v1 ttl).Set k v2).cache k = some ⟨v2, none⟩ := by
  have hc : alLookup ((c.SetWithTTL t0 k v1 ttl).Set k v2).cache k = some ⟨v2, none⟩ := by
    simp only [LRUCache.Set]
    exact alLookup_put_self _ _ _ _
  refine ⟨?_, ?_, hc⟩
  · simp [LRUCache.Get, Engine.get, hc]
  · simp only [LRUCache.Set]
    exact alLookup_alErase _ _

/-- Claim C9: `Clear` empties both the engine and the expiration index —
afterwards `Stats()` reports size 0 — while the hit and miss counters are
exactly the ones of the pre-`Clear` state. -/
theorem C9_clear_empties_preserves_counters {α : Type} (c : LRUCache α) :
    c.Clear.cache = [] ∧ c.Clear.ttlMap = [] ∧
    c.Clear.Stats = { hits := c.hits, misses := c.misses, size := 0 } := by
  simp [LRUCache.Clear, Engine.purge, LRUCache.Stats]

end Fibox

